import Mathlib

/-!
Verification of the caption-driven figure extractor of `src/utils/pdfUtils.ts`.

The extractor works on glyph runs positioned in the page's viewport coordinate
space.  The algorithm uses only ordered-ring operations on coordinates
(addition, subtraction, `max`, `min`, absolute value and comparisons — no
division or rounding), so we embed coordinates as `ℤ`; every property proved
here is insensitive to the choice of linear ordered ring scalar.

JavaScript's `Array.prototype.sort` is a stable sort; on a total preorder
comparator a stable sort's output is unique, so we model it by the stable
`List.insertionSort` with the relation "comparator ≤ 0".
-/

/-- Embedding of the `TextItemPosition` record (src/utils/pdfUtils.ts:13-21):
one positioned glyph run, already mapped to viewport coordinates by the
(external) `viewport.convertToViewportPoint` step. -/
structure TextItemPosition where
  str : String
  x : ℤ
  y : ℤ
  bottom : ℤ
  width : ℤ
  height : ℤ
  right : ℤ
deriving DecidableEq, Repr

/-- A merged line as returned by `mergeLine` (src/utils/pdfUtils.ts:211):
`\x7b text, x, y, bottom, height \x7d`. -/
structure Line where
  text : String
  x : ℤ
  y : ℤ
  bottom : ℤ
  height : ℤ
deriving DecidableEq, Repr

/-- The vertical crop window computed per caption (src/utils/pdfUtils.ts:126-148). -/
structure CropRegion where
  top : ℤ
  bottom : ℤ
deriving DecidableEq, Repr

/-- Embedding of the `ExtractedImage` record (src/utils/pdfUtils.ts:6-11).  The
`src` data-URL raster is determined by the page raster and the crop window, so
we carry the crop region in its place. -/
structure ExtractedImage where
  id : String
  label : String
  page : ℕ
  region : CropRegion
deriving DecidableEq, Repr

/-- Characters treated as whitespace by JavaScript's `\s` class and
`String.prototype.trim` (the ASCII part plus NBSP and the line/paragraph
separators; exotic Unicode spaces are omitted, none of the properties below
depend on them). -/
def isJsSpace (c : Char) : Bool :=
  c = ' ' || c = '\t' || c = '\n' || c = '\r' || c = '\x0b' || c = '\x0c' ||
  c = ' ' || c = ' ' || c = ' ' || c = '﻿'

/-- ASCII lower-casing, modelling the case-insensitive `i` regex flag on the
ASCII-only pattern `Figure|Fig`. -/
def lowerChar (c : Char) : Char :=
  if 'A' ≤ c ∧ c ≤ 'Z' then Char.ofNat (c.toNat + 32) else c

/-- `String.prototype.trim`: drop leading and trailing JS whitespace. -/
def jsTrim (cs : List Char) : List Char :=
  ((cs.dropWhile isJsSpace).reverse.dropWhile isJsSpace).reverse

/-- The character class `[\.\s]` of the caption pattern. -/
def isSepChar (c : Char) : Bool :=
  c = '.' || isJsSpace c

/-- The `[\.\s]+(\d+)` tail of the caption pattern: at least one separator
character, then the captured maximal run of at least one digit.  Since the
separator class and `\d` are disjoint, greedy matching needs no backtracking
here. -/
def sepThenDigits (cs : List Char) : Option String :=
  let rest := cs.dropWhile isSepChar
  if rest.length = cs.length then none
  else
    let digs := rest.takeWhile Char.isDigit
    if digs = [] then none else some (String.mk digs)

/-- Model of `captionRegex = /^(Figure|Fig)[\.\s]+(\d+)/i`
(src/utils/pdfUtils.ts:96): returns the captured digit group when the pattern
matches at the start of `s`.  The alternation backtracks from `Figure` to
`Fig` exactly as the regex engine does. -/
def captionMatch (s : String) : Option String :=
  let cs := s.data.map lowerChar
  match (if cs.take 6 = ['f','i','g','u','r','e'] then sepThenDigits (cs.drop 6) else none) with
  | some d => some d
  | none => if cs.take 3 = ['f','i','g'] then sepThenDigits (cs.drop 3) else none

/-- The normalized label built at src/utils/pdfUtils.ts:124:
`` `Figure ${match[2]}` ``. -/
def captionLabel (s : String) : Option String :=
  (captionMatch s).map (fun d => "Figure " ++ d)

/-- Candidate text above a caption (src/utils/pdfUtils.ts:129):
`lines.filter(l => l.bottom < cropBottom && l.bottom > 0)`. -/
def linesAbove (lines : List Line) (cropBottom : ℤ) : List Line :=
  lines.filter (fun l => decide (l.bottom < cropBottom) && decide (l.bottom > 0))

/-- Descending-`bottom` comparison used at src/utils/pdfUtils.ts:130:
`linesAbove.sort((a, b) => b.bottom - a.bottom)`. -/
def descBottom (a b : Line) : Prop :=
  b.bottom ≤ a.bottom

instance : DecidableRel descBottom :=
  fun a b => inferInstanceAs (Decidable (b.bottom ≤ a.bottom))

instance : IsTotal Line descBottom :=
  ⟨fun a b => le_total b.bottom a.bottom⟩

instance : IsTrans Line descBottom :=
  ⟨fun _ _ _ hab hbc => le_trans hbc hab⟩

/-- `linesAbove.sort((a,b) => b.bottom - a.bottom); const nearestLine = linesAbove[0]`
(src/utils/pdfUtils.ts:130-132). -/
def nearestLineAbove (lines : List Line) (cropBottom : ℤ) : Option Line :=
  (List.insertionSort descBottom (linesAbove lines cropBottom)).head?

/-- Crop top before the minimum-window correction (src/utils/pdfUtils.ts:133-139):
nearest line's bottom plus 15 of padding, or `max(0, cropBottom - 600)` when no
line lies above. -/
def cropTopRaw (caption : Line) (lines : List Line) : ℤ :=
  match nearestLineAbove lines caption.y with
  | some nearest => nearest.bottom + 15
  | none => max 0 (caption.y - 600)

/-- Crop top after the minimum-window correction (src/utils/pdfUtils.ts:141-145):
if the window is thinner than 100 units the top is recomputed as
`max(0, cropBottom - 450)`. -/
def cropTopFinal (caption : Line) (lines : List Line) : ℤ :=
  let t := cropTopRaw caption lines
  if caption.y - t < 100 then max 0 (caption.y - 450) else t

/-- The crop window for one caption, or `none` when the final height is
non-positive (src/utils/pdfUtils.ts:126-148; `cropBottom = caption.y`). -/
def inferCrop (caption : Line) (lines : List Line) : Option CropRegion :=
  let top := cropTopFinal caption lines
  if caption.y - top ≤ 0 then none else some ⟨top, caption.y⟩

/-- Ascending-`x` comparison used inside `mergeLine` (src/utils/pdfUtils.ts:186):
`items.sort((a, b) => a.x - b.x)`. -/
def leX (a b : TextItemPosition) : Prop :=
  a.x ≤ b.x

instance : DecidableRel leX :=
  fun a b => inferInstanceAs (Decidable (a.x ≤ b.x))

instance : IsTotal TextItemPosition leX :=
  ⟨fun a b => le_total a.x b.x⟩

instance : IsTrans TextItemPosition leX :=
  ⟨fun _ _ _ hab hbc => le_trans hab hbc⟩

/-- The concatenation loop of `mergeLine` (src/utils/pdfUtils.ts:188-203) after
its first item: between the previous run and the current one a single space is
inserted exactly when `curr.x - prev.right > 5`. -/
def mergeText : TextItemPosition → List TextItemPosition → String
  | _, [] => ""
  | prev, curr :: rest =>
    (if 5 < curr.x - prev.right then " " else "") ++ curr.str ++ mergeText curr rest

/-- Embedding of `mergeLine` (src/utils/pdfUtils.ts:184-212): sort the runs by
`x`, concatenate their texts with the gap rule, and take the bounding box
(`y` = min top, `bottom` = max bottom, `x` = first sorted run's left edge).
The `[]` case is unreachable: the grouping loop only emits non-empty groups. -/
def mergeLine (items : List TextItemPosition) : Line :=
  match List.insertionSort leX items with
  | [] => ⟨"", 0, 0, 0, 0⟩
  | h :: t =>
    let text := h.str ++ mergeText h t
    let top := (t.map TextItemPosition.y).foldl min h.y
    let bot := (t.map TextItemPosition.bottom).foldl max h.bottom
    ⟨text, h.x, top, bot, bot - top⟩

/-- The page-level run comparator (src/utils/pdfUtils.ts:66-72) read as
"comparator result ≤ 0": runs whose baselines differ by less than 8 units
compare by `x`, others by baseline.  The comparator is not transitive, so
`Array.prototype.sort`'s output on it is engine-specific; we fix the stable
insertion sort applied to this relation as the model. -/
def itemLe (a b : TextItemPosition) : Prop :=
  if |a.bottom - b.bottom| < 8 then a.x ≤ b.x else a.bottom ≤ b.bottom

instance : DecidableRel itemLe := fun a b => by
  unfold itemLe
  infer_instance

/-- `items.sort(...)` at src/utils/pdfUtils.ts:66. -/
def jsSortItems (items : List TextItemPosition) : List TextItemPosition :=
  List.insertionSort itemLe items

/-- The line-grouping loop (src/utils/pdfUtils.ts:74-91) with its two mutable
arrays made explicit: `lines` accumulates finished groups, `currentLine` the
group being built.  A run joins `currentLine` when its baseline is within 8
units of the last run pushed; otherwise `currentLine` is flushed and a new one
starts.  (The source pushes `mergeLine(currentLine)`; we keep raw groups and
apply `mergeLine` afterwards, which commutes.) -/
def groupLoop : List (List TextItemPosition) → List TextItemPosition →
    List TextItemPosition → List (List TextItemPosition)
  | lines, currentLine, [] => if currentLine = [] then lines else lines ++ [currentLine]
  | lines, currentLine, item :: rest =>
    match currentLine.getLast? with
    | none => groupLoop lines [item] rest
    | some last =>
      if |item.bottom - last.bottom| < 8 then groupLoop lines (currentLine ++ [item]) rest
      else groupLoop (lines ++ [currentLine]) [item] rest

/-- Grouping of the sorted runs into lines, starting from empty accumulators. -/
def groupLines (items : List TextItemPosition) : List (List TextItemPosition) :=
  groupLoop [] [] items

/-- Steps 1-2 of page processing (src/utils/pdfUtils.ts:62-91): drop runs whose
text is empty after a JS `trim`, sort with the page comparator, group into
lines and merge each group. -/
def pageLines (rawItems : List TextItemPosition) : List Line :=
  (groupLines (jsSortItems (rawItems.filter (fun i => 0 < (jsTrim i.str.data).length)))).map
    mergeLine

/-- `lines.filter(l => captionRegex.test(l.text))` (src/utils/pdfUtils.ts:98-102). -/
def captionLines (lines : List Line) : List Line :=
  lines.filter (fun l => (captionMatch l.text).isSome)

/-- The body of the per-caption loop (src/utils/pdfUtils.ts:121-172): re-match
the caption text (the `none` branch mirrors the dead `if (!match) continue`),
build the normalized label, infer the crop window, and emit the figure record
with id `` `${pageNum}-${label}` `` unless the window was discarded. -/
def processCaption (pageNum : ℕ) (lines : List Line) (caption : Line) :
    Option ExtractedImage :=
  match captionMatch caption.text with
  | none => none
  | some digits =>
    let label := "Figure " ++ digits
    match inferCrop caption lines with
    | none => none
    | some region =>
      some ⟨toString pageNum ++ "-" ++ label, label, pageNum, region⟩

/-- One successfully rendered page (src/utils/pdfUtils.ts:30-173): every
caption line is processed independently; discarded captions contribute
nothing. -/
def processPage (pageNum : ℕ) (rawItems : List TextItemPosition) : List ExtractedImage :=
  let lines := pageLines rawItems
  (captionLines lines).filterMap (processCaption pageNum lines)

/-- The document loop (src/utils/pdfUtils.ts:30-178) from a given starting page
number.  A page is `none` when its processing fails before any figure is
pushed — `getPage`/`getTextContent`/`render` throwing into the `catch`, or the
canvas context being unavailable (`if (!ctx) continue`); such a page
contributes no figures and the loop moves on. -/
def extractFrom : ℕ → List (Option (List TextItemPosition)) → List ExtractedImage
  | _, [] => []
  | pageNum, p :: rest =>
    (match p with
      | none => []
      | some items => processPage pageNum items) ++ extractFrom (pageNum + 1) rest

/-- Embedding of `extractImagesFromPdf` (src/utils/pdfUtils.ts:23-181): pages
are numbered from 1; the accumulated figure list is returned. -/
def extractImagesFromPdf (pages : List (Option (List TextItemPosition))) :
    List ExtractedImage :=
  extractFrom 1 pages

/-- A caption run near the top of a page. -/
def sampleRunLow : TextItemPosition :=
  ⟨"Figure 2: first", 10, 285, 300, 100, 15, 110⟩

/-- A second caption run for the same figure number, lower on the page. -/
def sampleRunHigh : TextItemPosition :=
  ⟨"Figure 2: second", 10, 685, 700, 100, 15, 110⟩

/-- A page whose two caption lines name the same figure number. -/
def sampleDupPage : List TextItemPosition :=
  [sampleRunLow, sampleRunHigh]

/-- A run with baseline 100. -/
def runBase100 : TextItemPosition :=
  ⟨"a", 0, 90, 100, 10, 10, 10⟩

/-- A run with baseline 104, on the same line as `runBase100`. -/
def runBase104 : TextItemPosition :=
  ⟨"b", 20, 94, 104, 10, 10, 30⟩

/-- A run with baseline 200, on a line of its own. -/
def runBase200 : TextItemPosition :=
  ⟨"c", 0, 190, 200, 10, 10, 10⟩

/-- Structural reformulation of the grouping loop: split the run list exactly
at those consecutive pairs whose baselines differ by 8 or more.  Proved equal
to `groupLines` below. -/
def chunkRuns : List TextItemPosition → List (List TextItemPosition)
  | [] => []
  | [x] => [[x]]
  | x :: y :: rest =>
    match chunkRuns (y :: rest) with
    | [] => [[x]]
    | g :: gs => if |y.bottom - x.bottom| < 8 then (x :: g) :: gs else [x] :: g :: gs

/-- C3: for every caption whose window computed by steps 1-4 is thinner than
100 viewport units, the computed top is discarded and the crop top becomes
`max 0 (crop bottom - 450)`. -/
theorem minimum_window_correction (caption : Line) (lines : List Line)
    (h : caption.y - cropTopRaw caption lines < 100) :
    cropTopFinal caption lines = max 0 (caption.y - 450) := by
  unfold cropTopFinal
  simp only [if_pos h]

/-- C3 witness: a caption at top Y 500 whose nearest line above has bottom 435
gives a computed window of height 50 (&lt; 100), so the top is recomputed as
`max 0 (500 - 450) = 50`. -/
theorem minimum_window_correction_witness :
    (500 : ℤ) - cropTopRaw ⟨"Figure 1", 0, 500, 520, 20⟩ [⟨"t", 0, 415, 435, 20⟩] = 50 ∧
    cropTopFinal ⟨"Figure 1", 0, 500, 520, 20⟩ [⟨"t", 0, 415, 435, 20⟩] = 50 := by
  refine ⟨by decide, ?_⟩
  have h := minimum_window_correction ⟨"Figure 1", 0, 500, 520, 20⟩ [⟨"t", 0, 415, 435, 20⟩]
    (by decide)
  rw [h]
  decide

/-- C4: a caption with no candidate line above it (no line with bottom Y
strictly between 0 and the crop bottom) gets crop top `max 0 (crop bottom - 600)`;
no page-height input occurs anywhere in the computation. -/
theorem fallback_no_line_above (caption : Line) (lines : List Line)
    (h : ∀ l ∈ lines, ¬ (0 < l.bottom ∧ l.bottom < caption.y)) :
    cropTopRaw caption lines = max 0 (caption.y - 600) := by
  have hempty : linesAbove lines caption.y = [] := by
    refine List.filter_eq_nil_iff.mpr ?_
    intro l hl
    have := h l hl
    simp only [Bool.and_eq_true, decide_eq_true_eq, gt_iff_lt]
    intro hc
    exact this ⟨hc.2, hc.1⟩
  unfold cropTopRaw nearestLineAbove
  rw [hempty]
  rfl

/-- C4 witness: crop bottom 200 with an empty page (and also with a line at
bottom 300, which is not above the caption) yields crop top
`max 0 (200 - 600) = 0`. -/
theorem fallback_no_line_above_witness :
    cropTopRaw ⟨"Fig. 2", 0, 200, 220, 20⟩ [⟨"below", 0, 280, 300, 20⟩] = 0 := by
  have h := fallback_no_line_above ⟨"Fig. 2", 0, 200, 220, 20⟩ [⟨"below", 0, 280, 300, 20⟩]
    (by decide)
  rw [h]
  decide

/-- Head of the descending sort of a non-empty candidate list: it is a
candidate and its `bottom` is greatest among candidates. -/
theorem nearestLineAbove_mem_max (lines : List Line) (cb : ℤ)
    (h : linesAbove lines cb ≠ []) :
    ∃ m, nearestLineAbove lines cb = some m ∧ m ∈ linesAbove lines cb ∧
      ∀ l ∈ linesAbove lines cb, l.bottom ≤ m.bottom := by
  have hperm : (List.insertionSort descBottom (linesAbove lines cb)).Perm (linesAbove lines cb) :=
    List.perm_insertionSort _ _
  have hsorted : List.Sorted descBottom (List.insertionSort descBottom (linesAbove lines cb)) :=
    List.sorted_insertionSort _ _
  cases hS : List.insertionSort descBottom (linesAbove lines cb) with
  | nil =>
    exact absurd ((hS ▸ hperm).symm.eq_nil) h
  | cons m t =>
    refine ⟨m, by simp [nearestLineAbove, hS], ?_, ?_⟩
    · exact (hS ▸ hperm).subset (List.mem_cons_self m t)
    · intro l hl
      have hl' : l ∈ m :: t := (hS ▸ hperm).symm.subset hl
      rcases List.mem_cons.mp hl' with rfl | hmem
      · exact le_refl _
      · exact List.rel_of_sorted_cons (hS ▸ hsorted) l hmem

/-- C1: the crop bottom is the caption line's top Y; the candidate set is
exactly the page's lines with bottom Y strictly between 0 and the crop bottom;
when it is non-empty the crop top (before the minimum-window correction) is
the greatest such bottom Y plus 15. -/
theorem crop_geometry_above (caption : Line) (lines : List Line) :
    (∀ r, inferCrop caption lines = some r → r.bottom = caption.y) ∧
    (∀ l, l ∈ linesAbove lines caption.y ↔
      l ∈ lines ∧ 0 < l.bottom ∧ l.bottom < caption.y) ∧
    (linesAbove lines caption.y ≠ [] →
      ∃ m ∈ lines, 0 < m.bottom ∧ m.bottom < caption.y ∧
        (∀ l ∈ lines, 0 < l.bottom → l.bottom < caption.y → l.bottom ≤ m.bottom) ∧
        cropTopRaw caption lines = m.bottom + 15) := by
  have hmemc : ∀ l, l ∈ linesAbove lines caption.y ↔
      l ∈ lines ∧ 0 < l.bottom ∧ l.bottom < caption.y := by
    intro l
    simp only [linesAbove, List.mem_filter, Bool.and_eq_true, decide_eq_true_eq, gt_iff_lt]
    tauto
  refine ⟨?_, hmemc, ?_⟩
  · intro r hr
    unfold inferCrop at hr
    by_cases hc : caption.y - cropTopFinal caption lines ≤ 0
    · simp [hc] at hr
    · simp only [hc, if_neg, if_false] at hr
      cases hr
      rfl
  · intro hne
    obtain ⟨m, hm, hmem, hmax⟩ := nearestLineAbove_mem_max lines caption.y hne
    obtain ⟨hml, hm0, hmc⟩ := (hmemc m).mp hmem
    refine ⟨m, hml, hm0, hmc, ?_, ?_⟩
    · intro l hl h0 hc
      exact hmax l ((hmemc l).mpr ⟨hl, h0, hc⟩)
    · unfold cropTopRaw
      rw [hm]

/-- C1 witness: a caption at top Y 500 whose only line above has bottom 300
gets crop top 315 (before the correction) and crop bottom 500. -/
theorem crop_geometry_above_witness :
    cropTopRaw ⟨"Figure 1: results", 0, 500, 520, 20⟩ [⟨"above", 0, 280, 300, 20⟩] = 315 ∧
    ∀ r, inferCrop ⟨"Figure 1: results", 0, 500, 520, 20⟩ [⟨"above", 0, 280, 300, 20⟩] = some r →
      r.bottom = 500 := by
  obtain ⟨h1, -, h3⟩ := crop_geometry_above ⟨"Figure 1: results", 0, 500, 520, 20⟩
    [⟨"above", 0, 280, 300, 20⟩]
  obtain ⟨m, hm, -, -, -, heq⟩ := h3 (by decide)
  refine ⟨?_, h1⟩
  rw [heq]
  have hmeq : m = ⟨"above", 0, 280, 300, 20⟩ := by simpa using hm
  rw [hmeq]
  decide

/-- C9: a caption whose line's top Y is strictly positive is never discarded by
the final height check: after the minimum-window correction the crop height is
strictly positive, and it is at least `min (crop bottom) 450` or at least 100.
Contrapositive: a caption can be dropped for non-positive height only when its
top Y is at most 0. -/
theorem positive_caption_never_dropped (caption : Line) (lines : List Line)
    (h : 0 < caption.y) :
    ∃ r, inferCrop caption lines = some r ∧
      (min caption.y 450 ≤ r.bottom - r.top ∨ 100 ≤ r.bottom - r.top) := by
  have hgap : 0 < caption.y - cropTopFinal caption lines ∧
      (min caption.y 450 ≤ caption.y - cropTopFinal caption lines ∨
        100 ≤ caption.y - cropTopFinal caption lines) := by
    unfold cropTopFinal
    by_cases hc : caption.y - cropTopRaw caption lines < 100
    · rw [if_pos hc]
      constructor
      · omega
      · left
        omega
    · rw [if_neg hc]
      constructor
      · omega
      · right
        omega
  refine ⟨⟨cropTopFinal caption lines, caption.y⟩, ?_, ?_⟩
  · unfold inferCrop
    rw [if_neg (by omega)]
  · exact hgap.2

/-- C9 witness: a caption at top Y 50 on an otherwise empty page is kept, with
crop `[0, 50)` of height `50 = min 50 450`. -/
theorem positive_caption_never_dropped_witness :
    ∃ r, inferCrop ⟨"Fig 7", 0, 50, 70, 20⟩ [] = some r ∧
      (min (50 : ℤ) 450 ≤ r.bottom - r.top ∨ 100 ≤ r.bottom - r.top) :=
  positive_caption_never_dropped ⟨"Fig 7", 0, 50, 70, 20⟩ [] (by decide)

/-- The digit group captured by `sepThenDigits` is a non-empty run of digits. -/
theorem sepThenDigits_digits {cs : List Char} {d : String}
    (h : sepThenDigits cs = some d) :
    d.data ≠ [] ∧ ∀ c ∈ d.data, c.isDigit = true := by
  unfold sepThenDigits at h
  simp only [] at h
  split at h
  · exact absurd h (by simp)
  · split at h
    · exact absurd h (by simp)
    · rename_i hne
      cases h
      refine ⟨hne, ?_⟩
      intro c hc
      exact List.mem_takeWhile_imp hc

/-- The digit group captured by `captionMatch` is a non-empty run of digits. -/
theorem captionMatch_digits {s d : String} (h : captionMatch s = some d) :
    d.data ≠ [] ∧ ∀ c ∈ d.data, c.isDigit = true := by
  unfold captionMatch at h
  simp only [] at h
  split at h
  · rename_i d1 heq
    cases h
    split at heq
    · exact sepThenDigits_digits heq
    · exact absurd heq (by simp)
  · split at h
    · exact sepThenDigits_digits h
    · exact absurd h (by simp)

/-- Shape of every figure emitted for one page: it carries the page number, its
id is the page number, a hyphen and the label, the label is `Figure ` followed
by a non-empty digit run, and its crop region has positive height. -/
theorem processPage_shape {pageNum : ℕ} {rawItems : List TextItemPosition}
    {f : ExtractedImage} (h : f ∈ processPage pageNum rawItems) :
    f.page = pageNum ∧ f.id = toString pageNum ++ "-" ++ f.label ∧
    f.region.top < f.region.bottom ∧
    ∃ d : String, f.label = "Figure " ++ d ∧ d.data ≠ [] ∧ ∀ c ∈ d.data, c.isDigit = true := by
  unfold processPage at h
  obtain ⟨caption, -, hsome⟩ := List.mem_filterMap.mp h
  unfold processCaption at hsome
  split at hsome
  · exact absurd hsome (by simp)
  · rename_i d hd
    split at hsome
    · exact absurd hsome (by simp)
    · rename_i region hregion
      cases hsome
      refine ⟨rfl, rfl, ?_, d, rfl, captionMatch_digits hd⟩
      unfold inferCrop at hregion
      simp only [] at hregion
      split at hregion
      · exact absurd hregion (by simp)
      · rename_i hpos
        cases hregion
        simp only
        omega

/-- Every figure of `extractFrom n ps` comes from a successfully processed page
`k` (0-based in `ps`), carries page number `n + k`, and belongs to that page's
own output. -/
theorem mem_extractFrom {n : ℕ} {ps : List (Option (List TextItemPosition))}
    {f : ExtractedImage} (h : f ∈ extractFrom n ps) :
    ∃ k items, ps[k]? = some (some items) ∧ f.page = n + k ∧
      f ∈ processPage (n + k) items := by
  induction ps generalizing n with
  | nil => exact absurd h (by simp [extractFrom])
  | cons p rest ih =>
    unfold extractFrom at h
    rcases List.mem_append.mp h with hleft | hright
    · cases p with
      | none => exact absurd hleft (by simp)
      | some items =>
        refine ⟨0, items, by simp, ?_, ?_⟩
        · exact ((processPage_shape hleft).1).trans (by omega)
        · simpa using hleft
    · obtain ⟨k, items, hk, hpage, hmem⟩ := ih hright
      refine ⟨k + 1, items, by simpa using hk, by omega, ?_⟩
      have : n + 1 + k = n + (k + 1) := by omega
      rw [← this]
      exact hmem

/-- Splitting the document loop around a list append: page numbering continues
across the split. -/
theorem extractFrom_append (ps1 : List (Option (List TextItemPosition))) :
    ∀ (n : ℕ) (ps2 : List (Option (List TextItemPosition))),
      extractFrom n (ps1 ++ ps2) =
        extractFrom n ps1 ++ extractFrom (n + ps1.length) ps2 := by
  induction ps1 with
  | nil =>
    intro n ps2
    simp [extractFrom]
  | cons p rest ih =>
    intro n ps2
    show (match p with
        | none => []
        | some items => processPage n items) ++ extractFrom (n + 1) (rest ++ ps2) = _
    rw [ih]
    have : n + 1 + rest.length = n + (rest.length + 1) := by omega
    rw [this]
    simp [extractFrom, List.append_assoc]

/-- C2: every extracted figure's label is `Figure ` followed by a non-empty
digit run, and the variants `Figure 1`, `Fig. 1`, `fig 1`, `FIGURE.1` all
match and normalize to the label `Figure 1`. -/
theorem label_normal_form :
    (∀ (n : ℕ) (ps : List (Option (List TextItemPosition))) (f : ExtractedImage),
      f ∈ extractFrom n ps →
      ∃ d : String, f.label = "Figure " ++ d ∧ d.data ≠ [] ∧
        ∀ c ∈ d.data, c.isDigit = true) ∧
    captionLabel "Figure 1" = some "Figure 1" ∧
    captionLabel "Fig. 1" = some "Figure 1" ∧
    captionLabel "fig 1" = some "Figure 1" ∧
    captionLabel "FIGURE.1" = some "Figure 1" := by
  refine ⟨?_, by decide, by decide, by decide, by decide⟩
  intro n ps f hf
  obtain ⟨k, items, -, -, hmem⟩ := mem_extractFrom hf
  obtain ⟨-, -, -, d, hd⟩ := processPage_shape hmem
  exact ⟨d, hd⟩

/-- C2 witness: the figure extracted from `sampleRunLow`'s page has label
`Figure ` followed by the digits `2`. -/
theorem label_normal_form_witness :
    ∃ d : String,
      (ExtractedImage.mk "1-Figure 2" "Figure 2" 1 (CropRegion.mk 0 285)).label =
        "Figure " ++ d ∧ d.data ≠ [] ∧ ∀ c ∈ d.data, c.isDigit = true :=
  label_normal_form.1 1 [some [sampleRunLow]]
    (ExtractedImage.mk "1-Figure 2" "Figure 2" 1 (CropRegion.mk 0 285)) (by decide)

/-- C5: every emitted figure's crop region has strictly positive height; a
caption whose final crop top reaches its crop bottom yields `none`; and a
discarded caption is simply skipped — the remaining captions of the list are
processed unchanged. -/
theorem positive_height_invariant :
    (∀ (n : ℕ) (ps : List (Option (List TextItemPosition))) (f : ExtractedImage),
      f ∈ extractFrom n ps → f.region.top < f.region.bottom) ∧
    (∀ (caption : Line) (lines : List Line),
      caption.y ≤ cropTopFinal caption lines → inferCrop caption lines = none) ∧
    (∀ (pageNum : ℕ) (lines : List Line) (cs1 cs2 : List Line) (c : Line),
      processCaption pageNum lines c = none →
      (cs1 ++ c :: cs2).filterMap (processCaption pageNum lines) =
        (cs1 ++ cs2).filterMap (processCaption pageNum lines)) := by
  refine ⟨?_, ?_, ?_⟩
  · intro n ps f hf
    obtain ⟨k, items, -, -, hmem⟩ := mem_extractFrom hf
    exact (processPage_shape hmem).2.2.1
  · intro caption lines hle
    unfold inferCrop
    rw [if_pos (by omega)]
  · intro pageNum lines cs1 cs2 c hc
    simp [List.filterMap_append, List.filterMap_cons, hc]

/-- C5 witness: a caption line at top Y 0 is discarded (`inferCrop` is `none`)
and dropping it from a caption list leaves the other captions' output
unchanged. -/
theorem positive_height_invariant_witness :
    inferCrop ⟨"Fig 1", 0, 0, 20, 20⟩ [] = none ∧
    ([⟨"Fig 1", 0, 0, 20, 20⟩] : List Line).filterMap (processCaption 1 []) =
      ([] : List Line).filterMap (processCaption 1 []) := by
  constructor
  · exact positive_height_invariant.2.1 ⟨"Fig 1", 0, 0, 20, 20⟩ [] (by decide)
  · have h := positive_height_invariant.2.2 1 [] [] [] ⟨"Fig 1", 0, 0, 20, 20⟩ (by decide)
    simpa using h

/-- C8: a failed page (render, text extraction or canvas-context acquisition)
never aborts the document loop: the result is exactly the figures of the pages
before it followed by the figures of the pages after it, each processed once at
its own page number, and no figure carries the failed page's number. -/
theorem page_failure_isolated (n : ℕ)
    (ps1 ps2 : List (Option (List TextItemPosition))) :
    extractFrom n (ps1 ++ none :: ps2) =
      extractFrom n ps1 ++ extractFrom (n + ps1.length + 1) ps2 ∧
    ∀ f ∈ extractFrom n (ps1 ++ none :: ps2), f.page ≠ n + ps1.length := by
  constructor
  · rw [extractFrom_append]
    show extractFrom n ps1 ++ ([] ++ extractFrom (n + ps1.length + 1) ps2) = _
    rw [List.nil_append]
  · intro f hf hpage
    obtain ⟨k, items, hk, hpk, -⟩ := mem_extractFrom hf
    have hkeq : k = ps1.length := by omega
    subst hkeq
    rw [List.getElem?_append_right (le_refl _)] at hk
    simp at hk

/-- C8 witness: with page 2 failing between two good pages, the extraction
returns both good pages' figures and the first figure's page number is not 2. -/
theorem page_failure_isolated_witness :
    extractFrom 1 ([some [sampleRunLow]] ++ none :: [some [sampleRunHigh]]) =
      extractFrom 1 [some [sampleRunLow]] ++ extractFrom 3 [some [sampleRunHigh]] ∧
    (ExtractedImage.mk "1-Figure 2" "Figure 2" 1 (CropRegion.mk 0 285)).page ≠ 2 := by
  obtain ⟨h1, h2⟩ := page_failure_isolated 1 [some [sampleRunLow]] [some [sampleRunHigh]]
  exact ⟨h1, h2 (ExtractedImage.mk "1-Figure 2" "Figure 2" 1 (CropRegion.mk 0 285)) (by decide)⟩

/-- C10: every emitted figure's id is the page number, a hyphen and the label;
ids are not unique: a page with two distinct caption lines naming the same
figure number yields two distinct figures with identical id and label. -/
theorem id_is_page_hyphen_label :
    (∀ (n : ℕ) (ps : List (Option (List TextItemPosition))) (f : ExtractedImage),
      f ∈ extractFrom n ps → f.id = toString f.page ++ "-" ++ f.label) ∧
    ((captionLines (pageLines sampleDupPage)).map Line.text =
      ["Figure 2: first", "Figure 2: second"] ∧
     ∃ f1 f2, extractFrom 1 [some sampleDupPage] = [f1, f2] ∧
       f1 ≠ f2 ∧ f1.id = f2.id ∧ f1.label = f2.label ∧ f1.id = "1-Figure 2") := by
  constructor
  · intro n ps f hf
    obtain ⟨k, items, -, hpage, hmem⟩ := mem_extractFrom hf
    obtain ⟨hpg, hid, -⟩ := processPage_shape hmem
    rw [hid, hpg]
  · refine ⟨by decide, ⟨"1-Figure 2", "Figure 2", 1, ⟨0, 285⟩⟩,
      ⟨"1-Figure 2", "Figure 2", 1, ⟨315, 685⟩⟩, by decide, by decide, by decide, by decide,
      by decide⟩

/-- C10 witness: the id format instantiated on a concrete extraction. -/
theorem id_is_page_hyphen_label_witness :
    (ExtractedImage.mk "1-Figure 2" "Figure 2" 1 (CropRegion.mk 0 285)).id =
      toString (ExtractedImage.mk "1-Figure 2" "Figure 2" 1 (CropRegion.mk 0 285)).page ++
        "-" ++ (ExtractedImage.mk "1-Figure 2" "Figure 2" 1 (CropRegion.mk 0 285)).label :=
  id_is_page_hyphen_label.1 1 [some [sampleRunLow]]
    (ExtractedImage.mk "1-Figure 2" "Figure 2" 1 (CropRegion.mk 0 285)) (by decide)

/-- The `lines` accumulator of the grouping loop only collects finished groups
in front of the remaining computation. -/
theorem groupLoop_append_acc (rest : List TextItemPosition) :
    ∀ (lines : List (List TextItemPosition)) (cur : List TextItemPosition),
      groupLoop lines cur rest = lines ++ groupLoop [] cur rest := by
  induction rest with
  | nil =>
    intro lines cur
    simp only [groupLoop]
    split <;> simp
  | cons i rest ih =>
    intro lines cur
    simp only [groupLoop]
    cases hl : cur.getLast? with
    | none =>
      simp only [hl]
      exact ih lines [i]
    | some la =>
      simp only [hl]
      split
      · exact ih lines (cur ++ [i])
      · rw [ih (lines ++ [cur]) [i]]
        simp only [List.nil_append]
        rw [ih [cur] [i]]
        simp [List.append_assoc]

/-- Bridge between the loop and the structural recursion: running the loop with
a non-empty current group whose last pushed run is `la` produces the chunks of
`la :: rest`, with the current group's prefix glued onto the first chunk. -/
theorem groupLoop_chunkRuns (rest : List TextItemPosition) :
    ∀ (c : List TextItemPosition) (la : TextItemPosition),
      ∃ g gs, chunkRuns (la :: rest) = (la :: g) :: gs ∧
        groupLoop [] (c ++ [la]) rest = (c ++ la :: g) :: gs := by
  induction rest with
  | nil =>
    intro c la
    refine ⟨[], [], rfl, ?_⟩
    simp [groupLoop]
  | cons i rest ih =>
    intro c la
    have hlast : (c ++ [la]).getLast? = some la := by simp
    by_cases hc : |i.bottom - la.bottom| < 8
    · obtain ⟨g, gs, hck, hgl⟩ := ih (c ++ [la]) i
      refine ⟨i :: g, gs, ?_, ?_⟩
      · simp only [chunkRuns, hck, if_pos hc]
      · simp only [groupLoop, hlast, if_pos hc]
        rw [hgl]
        simp
    · obtain ⟨g, gs, hck, hgl⟩ := ih [] i
      refine ⟨[], (i :: g) :: gs, ?_, ?_⟩
      · simp only [chunkRuns, hck, if_neg hc]
      · simp only [groupLoop, hlast, if_neg hc]
        rw [groupLoop_append_acc]
        rw [show groupLoop [] [i] rest = (i :: g) :: gs from by simpa using hgl]
        simp

/-- The grouping loop equals the structural chunking. -/
theorem groupLines_eq_chunkRuns (items : List TextItemPosition) :
    groupLines items = chunkRuns items := by
  cases items with
  | nil => rfl
  | cons i rest =>
    unfold groupLines
    simp only [groupLoop, List.getLast?_nil]
    obtain ⟨g, gs, hck, hgl⟩ := groupLoop_chunkRuns rest [] i
    rw [hck]
    simpa using hgl

/-- Chunking loses no runs and keeps their order. -/
theorem chunkRuns_flatten (items : List TextItemPosition) :
    (chunkRuns items).flatten = items := by
  induction items with
  | nil => rfl
  | cons x xs ih =>
    cases xs with
    | nil => rfl
    | cons y rest =>
      obtain ⟨g, gs, hck, -⟩ := groupLoop_chunkRuns rest [] y
      rw [hck] at ih
      simp only [chunkRuns, hck]
      split <;> simp_all

/-- Every chunk is non-empty and its consecutive runs' baselines differ by
less than 8. -/
theorem chunkRuns_groups (items : List TextItemPosition) :
    ∀ gp ∈ chunkRuns items, gp ≠ [] ∧
      gp.Chain' (fun a b => |b.bottom - a.bottom| < 8) := by
  induction items with
  | nil =>
    intro gp h
    exact absurd h (by simp [chunkRuns])
  | cons x xs ih =>
    cases xs with
    | nil =>
      intro gp h
      simp only [chunkRuns, List.mem_singleton] at h
      subst h
      exact ⟨by simp, by simp⟩
    | cons y rest =>
      obtain ⟨g, gs, hck, -⟩ := groupLoop_chunkRuns rest [] y
      intro gp h
      simp only [chunkRuns, hck] at h
      split at h
      · rename_i hc
        rcases List.mem_cons.mp h with rfl | hmem
        · refine ⟨by simp, ?_⟩
          rw [List.chain'_cons]
          refine ⟨hc, ?_⟩
          exact (ih (y :: g) (by rw [hck]; exact List.mem_cons_self _ _)).2
        · exact ih gp (by rw [hck]; exact List.mem_cons_of_mem _ hmem)
      · rcases List.mem_cons.mp h with rfl | hmem
        · exact ⟨by simp, by simp⟩
        · exact ih gp (by rw [hck]; exact hmem)

/-- At every boundary between consecutive chunks, the last run of the earlier
chunk and the first run of the later one have baselines 8 or more apart. -/
theorem chunkRuns_boundaries (items : List TextItemPosition) :
    (chunkRuns items).Chain' (fun g1 g2 =>
      ∀ a ∈ g1.getLast?, ∀ b ∈ g2.head?, 8 ≤ |b.bottom - a.bottom|) := by
  induction items with
  | nil => simp [chunkRuns]
  | cons x xs ih =>
    cases xs with
    | nil => simp [chunkRuns]
    | cons y rest =>
      obtain ⟨g, gs, hck, -⟩ := groupLoop_chunkRuns rest [] y
      rw [hck] at ih
      simp only [chunkRuns, hck]
      split
      · rename_i hc
        rw [List.chain'_cons'] at ih ⊢
        refine ⟨?_, ih.2⟩
        intro h2 hh2 a ha b hb
        rw [List.getLast?_cons_cons] at ha
        exact ih.1 h2 hh2 a ha b hb
      · rename_i hc
        rw [List.chain'_cons]
        refine ⟨?_, ih⟩
        intro a ha b hb
        simp only [List.getLast?_singleton, Option.mem_some_iff] at ha
        simp only [List.head?_cons, Option.mem_some_iff] at hb
        subst ha
        subst hb
        exact not_lt.mp hc

/-- C7: line grouping over the sorted runs partitions them in order into
non-empty groups; inside a group each run's baseline is within 8 units of the
previous run's (the line's last run when it joined), and at every group
boundary the baselines are 8 or more apart. -/
theorem grouping_baseline_tolerance (items : List TextItemPosition) :
    (groupLines items).flatten = items ∧
    (∀ gp ∈ groupLines items, gp ≠ [] ∧
      gp.Chain' (fun a b => |b.bottom - a.bottom| < 8)) ∧
    (groupLines items).Chain' (fun g1 g2 =>
      ∀ a ∈ g1.getLast?, ∀ b ∈ g2.head?, 8 ≤ |b.bottom - a.bottom|) := by
  rw [groupLines_eq_chunkRuns]
  exact ⟨chunkRuns_flatten items, chunkRuns_groups items, chunkRuns_boundaries items⟩

/-- C7 witness: runs with baselines 100, 104, 200 group into two lines — the
first two merge (difference 4 &lt; 8), the third starts a new line
(difference 96 ≥ 8). -/
theorem grouping_baseline_tolerance_witness :
    (groupLines [runBase100, runBase104, runBase200]).flatten =
      [runBase100, runBase104, runBase200] ∧
    ([runBase100, runBase104] ≠ ([] : List TextItemPosition) ∧
      List.Chain' (fun a b : TextItemPosition => |b.bottom - a.bottom| < 8)
        [runBase100, runBase104]) := by
  refine ⟨(grouping_baseline_tolerance [runBase100, runBase104, runBase200]).1, ?_⟩
  exact (grouping_baseline_tolerance [runBase100, runBase104, runBase200]).2.1
    [runBase100, runBase104] (by decide)

/-- C6: merging a line already in left-to-right order concatenates the run
texts with a single space between two consecutive runs exactly when the
horizontal gap (next left X minus previous right X) exceeds 5; a one-run line
is that run's text unchanged. -/
theorem merge_gap_spaces :
    (∀ a b : TextItemPosition, a.x ≤ b.x →
      (mergeLine [a, b]).text =
        if 5 < b.x - a.right then a.str ++ " " ++ b.str else a.str ++ b.str) ∧
    (∀ a : TextItemPosition, (mergeLine [a]).text = a.str) ∧
    (∀ (p : TextItemPosition) (t : List TextItemPosition), List.Sorted leX (p :: t) →
      (mergeLine (p :: t)).text = p.str ++ mergeText p t) := by
  have key : ∀ (p : TextItemPosition) (t : List TextItemPosition), List.Sorted leX (p :: t) →
      (mergeLine (p :: t)).text = p.str ++ mergeText p t := by
    intro p t hs
    unfold mergeLine
    rw [List.Sorted.insertionSort_eq hs]
  refine ⟨?_, ?_, key⟩
  · intro a b hab
    have hs : List.Sorted leX [a, b] := by
      simp only [List.sorted_cons, List.mem_singleton, List.not_mem_nil, false_implies,
        implies_true, forall_eq]
      exact ⟨hab, trivial, List.sorted_nil⟩
    rw [key a [b] hs]
    simp only [mergeText]
    split <;> simp [String.append_assoc]
  · intro a
    have hs : List.Sorted leX [a] := by simp
    rw [key a [] hs]
    simp [mergeText]

/-- C6 witness: with a previous run ending at X 20, a next run starting at
X 26 (gap 6) gets a space, while one starting at X 25 (gap 5) is concatenated
directly. -/
theorem merge_gap_spaces_witness :
    (mergeLine [⟨"Fi", 0, 0, 10, 20, 10, 20⟩, ⟨"g. 3", 26, 0, 10, 30, 10, 56⟩]).text =
      "Fi" ++ " " ++ "g. 3" ∧
    (mergeLine [⟨"Fi", 0, 0, 10, 20, 10, 20⟩, ⟨"g. 3", 25, 0, 10, 30, 10, 55⟩]).text =
      "Fi" ++ "g. 3" := by
  constructor
  · rw [merge_gap_spaces.1 ⟨"Fi", 0, 0, 10, 20, 10, 20⟩ ⟨"g. 3", 26, 0, 10, 30, 10, 56⟩
      (by decide)]
    decide
  · rw [merge_gap_spaces.1 ⟨"Fi", 0, 0, 10, 20, 10, 20⟩ ⟨"g. 3", 25, 0, 10, 30, 10, 55⟩
      (by decide)]
    decide
